import Mathlib

/-!
Shallow embedding of `src/main.py`, a single-pass pipeline that extracts
bill links from a listing page, classifies bill texts into policy sectors
by keyword search, scores them, and writes a CSV summary.

Python strings are modelled as Lean `String` (a list of Unicode code
points, matching Python's code-point view of `str`); Python `int` is
modelled as `Int`; Python dicts that preserve insertion order are
modelled as association lists.  Library functions from outside the
repository (BeautifulSoup, `urllib.parse.urljoin`, the `csv` module,
`str.lower`) are either taken as explicit function parameters or modelled
on the character ranges the program actually uses, as noted at each
definition.
-/

/-- Models Python `str.lower` on one character, on the character ranges
occurring in this repository's data: ASCII `A`-`Z`, the Cyrillic block
`U+0400`-`U+042F` (covering Ukrainian `Ё І Ї Є` and `А`-`Я`), and `Ґ`.
Other characters are returned unchanged. -/
def pyLowerChar (c : Char) : Char :=
  if 'A' ≤ c ∧ c ≤ 'Z' then Char.ofNat (c.toNat + 32)
  else if 0x400 ≤ c.toNat ∧ c.toNat ≤ 0x40F then Char.ofNat (c.toNat + 0x50)
  else if 0x410 ≤ c.toNat ∧ c.toNat ≤ 0x42F then Char.ofNat (c.toNat + 0x20)
  else if c.toNat = 0x490 then Char.ofNat 0x491
  else c

/-- Models Python `str.lower` (`text.lower()` in `main.py`). -/
def pyLower (s : String) : String := ⟨s.data.map pyLowerChar⟩

/-- Boolean test that `n` is a prefix of the second list. -/
def isPrefixB : List Char → List Char → Bool
  | [], _ => true
  | _ :: _, [] => false
  | a :: as, b :: bs => a = b && isPrefixB as bs

/-- Boolean substring containment on code-point lists: models Python's
`needle in hay` for strings. -/
def isSubB (n : List Char) : List Char → Bool
  | [] => isPrefixB n []
  | c :: t => isPrefixB n (c :: t) || isSubB n t

/-- Models Python `needle in hay` on strings. -/
def containsSub (hay needle : String) : Bool := isSubB needle.data hay.data

/-- Models Python `';'.join(l)`. -/
def joinSemicolon : List String → String
  | [] => ""
  | [x] => x
  | x :: y :: t => x ++ ";" ++ joinSemicolon (y :: t)

/-- Models Python `' '.join(l)`. -/
def joinSpace : List String → String
  | [] => ""
  | [x] => x
  | x :: y :: t => x ++ " " ++ joinSpace (y :: t)

/-- `SECTOR_KEYWORDS` from `main.py` lines 9-22: insertion-ordered dict of
sector id to keyword stems, as an association list. -/
def SECTOR_KEYWORDS : List (String × List String) :=
  [("agrarian",
    ["земл", "сільськогосподар", "фермер", "підтримк", "субсид",
     "експорт", "хліб", "зерно", "фітосаніт", "фітосанитар", "квот", "аграр", "паї"]),
   ("social",
    ["труд", "зарплат", "страхов", "пенс", "пенсій", "праці",
     "охорон", "соціал", "внеск", "штраф", "відпустк"]),
   ("corporate",
    ["подат", "валют", "корпоратив", "управл", "m&a", "злит",
     "придб", "борг", "вій", "ліміт", "концерн"])]

/-- `SECTOR_LABELS` from `main.py` lines 24-29. -/
def SECTOR_LABELS : List (String × String) :=
  [("agrarian", "Аграрний"),
   ("social", "Соціальний"),
   ("corporate", "Корпоративний"),
   ("other", "Інший")]

/-- The keywords of one sector that occur in the lowered text: the inner
loop of `analyze_text_for_sectors` (`if kw.lower() in low: found[sector].append(kw)`). -/
def matchedKeywords (low : String) (kws : List String) : List String :=
  kws.filter (fun kw => containsSub low (pyLower kw))

/-- `analyze_text_for_sectors` from `main.py` lines 126-134.  Returns the
list of sector ids with at least one keyword hit, in table order, and the
per-sector dict `{s: list(set(found[s]))}`.  Python's `list(set(...))`
deduplicates with unspecified order; it is modelled as `List.dedup`
(the inputs carry no duplicates, so only the set of elements matters). -/
def analyze_text_for_sectors (text : String) :
    List String × List (String × List String) :=
  let low := pyLower text
  let found := SECTOR_KEYWORDS.map (fun p => (p.1, matchedKeywords low p.2))
  ((found.filter (fun p => !p.2.isEmpty)).map (fun p => p.1),
   found.map (fun p => (p.1, p.2.dedup)))

/-- The penalty-term test of `compute_risk_score`:
`re.search(r'штраф|штрафи|санкц', text, re.I)`, a case-insensitive
search for any of the three alternatives. -/
def hasPenaltyTerm (text : String) : Bool :=
  containsSub (pyLower text) "штраф" || containsSub (pyLower text) "штрафи" ||
    containsSub (pyLower text) "санкц"

/-- `compute_risk_score` from `main.py` lines 137-146.  `keywords_map` is
the Python dict, modelled as an association list; `.get(s, [])` is
`(lookup s).getD []`. -/
def compute_risk_score (matched : List String)
    (keywords_map : List (String × List String)) (text : String) : Int :=
  let score : Int := 0 + 2 * matched.length
  let score := matched.foldl
    (fun acc s => acc + (((keywords_map.lookup s).getD []).length : Int)) score
  let score := if hasPenaltyTerm text then score + 3 else score
  if score > 10 then 10 else score

/-- The risk-score formula exactly as the claim words it: 2 per matched
sector, plus 1 per keyword recorded in the map across ALL sectors
(every entry of the map), plus the flat 3 for a penalty term, clamped
at 10.  Stated from the claim's words, to be compared with
`compute_risk_score`. -/
def claimRiskFormula (matched : List String)
    (keywords_map : List (String × List String)) (text : String) : Int :=
  min 10 (2 * matched.length +
    (keywords_map.map (fun p => (p.2.length : Int))).sum +
    (if hasPenaltyTerm text then 3 else 0))

/-- The amended risk-score formula: keywords are counted only for the
sectors listed in `matched`, as the code's loop `for s in matched` does. -/
def amendedRiskFormula (matched : List String)
    (keywords_map : List (String × List String)) (text : String) : Int :=
  min 10 (2 * matched.length +
    (matched.map (fun s => (((keywords_map.lookup s).getD []).length : Int))).sum +
    (if hasPenaltyTerm text then 3 else 0))

section RiskLemmas

lemma foldl_add_map {α : Type} (f : α → Int) (l : List α) (init : Int) :
    l.foldl (fun acc s => acc + f s) init = init + (l.map f).sum := by
  induction l generalizing init with
  | nil => simp
  | cons x xs ih => simp [List.foldl_cons, ih, add_assoc]

lemma sum_map_nonneg {α : Type} (f : α → Int) (l : List α)
    (h : ∀ a ∈ l, 0 ≤ f a) : 0 ≤ (l.map f).sum := by
  induction l with
  | nil => simp
  | cons x xs ih =>
      simp only [List.map_cons, List.sum_cons]
      have h1 := h x (by simp)
      have h2 := ih (fun a ha => h a (by simp [ha]))
      omega

end RiskLemmas

/-- Claim C1 (amended): `compute_risk_score` returns, clamped to a
maximum of 10, twice the number of matched sectors, plus one for each
keyword the map records for each matched sector (keywords the map holds
for sectors outside `matched` are not counted), plus a flat 3 when the
body text contains a penalty/fine word stem. -/
theorem compute_risk_score_eq_amended_formula (matched : List String)
    (keywords_map : List (String × List String)) (text : String) :
    compute_risk_score matched keywords_map text =
      amendedRiskFormula matched keywords_map text := by
  simp only [compute_risk_score, amendedRiskFormula]
  rw [foldl_add_map]
  set k : Int := (matched.map
    (fun s => (((keywords_map.lookup s).getD []).length : Int))).sum with hk
  have hk0 : 0 ≤ k := by
    rw [hk]
    exact sum_map_nonneg _ _ (fun a _ => by positivity)
  split_ifs <;> omega

/-- Claim C1 (counterexample): the claim's own formula counts keywords
recorded for unmatched sectors, which the code does not: with no matched
sector and a map recording one keyword for `social`, the code returns 0
while the claimed formula gives 1. -/
theorem compute_risk_score_claim_formula_cex :
    compute_risk_score [] [("social", ["x"])] "" = 0 ∧
      claimRiskFormula [] [("social", ["x"])] "" = 1 := by
  constructor <;> decide

/-- Claim C2: for every matched-sector list, keyword map and body text,
`compute_risk_score` returns an integer in the closed range `[0, 10]`. -/
theorem compute_risk_score_range (matched : List String)
    (keywords_map : List (String × List String)) (text : String) :
    0 ≤ compute_risk_score matched keywords_map text ∧
      compute_risk_score matched keywords_map text ≤ 10 := by
  simp only [compute_risk_score]
  rw [foldl_add_map]
  set k : Int := (matched.map
    (fun s => (((keywords_map.lookup s).getD []).length : Int))).sum with hk
  have hk0 : 0 ≤ k := by
    rw [hk]
    exact sum_map_nonneg _ _ (fun a _ => by positivity)
  have hm : (0 : Int) ≤ 2 * matched.length := by positivity
  split_ifs <;> constructor <;> omega

set_option maxRecDepth 8192 in
/-- Claim C4: on the body text
`"Цей закон стосується землі та субсидій. Це другий рядок."` the
classifier reports `agrarian` among the matched sectors with both
`земл` and `субсид` recorded for it, and the risk score of that
classification is at least 4. -/
theorem scenario_agrarian_text :
    "agrarian" ∈ (analyze_text_for_sectors
        "Цей закон стосується землі та субсидій. Це другий рядок.").1 ∧
    "земл" ∈ ((analyze_text_for_sectors
        "Цей закон стосується землі та субсидій. Це другий рядок.").2.lookup
          "agrarian").getD [] ∧
    "субсид" ∈ ((analyze_text_for_sectors
        "Цей закон стосується землі та субсидій. Це другий рядок.").2.lookup
          "agrarian").getD [] ∧
    4 ≤ compute_risk_score
        (analyze_text_for_sectors
          "Цей закон стосується землі та субсидій. Це другий рядок.").1
        (analyze_text_for_sectors
          "Цей закон стосується землі та субсидій. Це другий рядок.").2
        "Цей закон стосується землі та субсидій. Це другий рядок." := by
  decide

/-- Python regex `\s` on the ASCII range (the whitespace the program's
texts contain); other Unicode whitespace is not modelled. -/
def isWS (c : Char) : Bool :=
  c = ' ' || c = '\t' || c = '\n' || c = '\r' || c = '\x0b' || c = '\x0c'

/-- Sentence-terminating characters of the summarizer's split pattern. -/
def isSentEnd (c : Char) : Bool := c = '.' || c = '!' || c = '?'

/-- Whether the segment accumulated so far (in reverse) ends in a
sentence terminator: the lookbehind of `(?<=[.!?])`. -/
def headIsSentEnd : List Char → Bool
  | [] => false
  | p :: _ => isSentEnd p

/-- One left-to-right scan of `re.split(r'(?<=[.!?])\s+', text)`:
`skipping` is true while consuming a maximal whitespace run that began
right after a sentence terminator (the delimiter); `acc` holds the
current segment reversed. -/
def splitSentencesAux (skipping : Bool) (acc : List Char) :
    List Char → List (List Char)
  | [] => [acc.reverse]
  | c :: rest =>
    if skipping then
      if isWS c then splitSentencesAux true acc rest
      else splitSentencesAux false [c] rest
    else
      if isWS c && headIsSentEnd acc then
        acc.reverse :: splitSentencesAux true [] rest
      else splitSentencesAux false (c :: acc) rest

/-- The sentence list `re.split(r'(?<=[.!?])\s+', text)` of
`summarize_text` (`main.py` line 150). -/
def pySentences (text : String) : List String :=
  (splitSentencesAux false [] text.data).map (fun l => ⟨l⟩)

/-- Models Python `str.strip()` (ASCII whitespace, as above). -/
def pyStrip (s : String) : String :=
  ⟨((s.data.dropWhile isWS).reverse.dropWhile isWS).reverse⟩

/-- Models Python `s.rsplit(' ', 1)[0]`: everything before the last
space, or the whole string when no space occurs. -/
def rsplitLastSpace (l : List Char) : List Char :=
  match l.reverse.dropWhile (fun c => !(c = ' ')) with
  | [] => l
  | _ :: before => before.reverse

/-- The sentence-selection part of `summarize_text` (`main.py` lines
150-155): first two sentences joined by a space (or the single one),
then `s.strip()`. -/
def selectedSummary (text : String) : String :=
  let sentences := pySentences text
  let s := if 2 ≤ sentences.length then joinSpace (sentences.take 2)
           else sentences.headD ""
  pyStrip s

/-- `summarize_text` from `main.py` lines 149-158. -/
def summarize_text (text : String) (max_chars : Nat := 300) : String :=
  let s := selectedSummary text
  if max_chars < s.length then
    ⟨rsplitLastSpace (s.data.take max_chars) ++ "...".data⟩
  else s

/-- The summarizer exactly as the claim words it: first two sentences
joined when two or more exist, the single sentence when one exists, the
empty string when none, then the budget truncation with backtracking and
ellipsis.  Stated from the claim's words (no `strip`), to be compared
with `summarize_text`. -/
def summarize_claim (text : String) (max_chars : Nat) : String :=
  let sel : String :=
    match pySentences text with
    | [] => ""
    | [s1] => s1
    | s1 :: s2 :: _ => s1 ++ " " ++ s2
  if max_chars < sel.length then
    ⟨rsplitLastSpace (sel.data.take max_chars) ++ "...".data⟩
  else sel

/-- The claim's summarizer amended with the one step it omitted: the
selected text is stripped of leading and trailing whitespace before the
budget check. -/
def summarize_claim_amended (text : String) (max_chars : Nat) : String :=
  let sel : String := pyStrip (match pySentences text with
    | [] => ""
    | [s1] => s1
    | s1 :: s2 :: _ => s1 ++ " " ++ s2)
  if max_chars < sel.length then
    ⟨rsplitLastSpace (sel.data.take max_chars) ++ "...".data⟩
  else sel

/-- Claim C5 (amended): `summarize_text` selects the first two sentences
joined (or the single sentence, or the empty string), strips the
selection of surrounding whitespace, and when it exceeds the budget
truncates it to the budget, backtracks to the last space, and appends an
ellipsis. -/
theorem summarize_text_matches_amended_claim (text : String) (max_chars : Nat) :
    summarize_text text max_chars = summarize_claim_amended text max_chars := by
  have hsel : selectedSummary text = pyStrip (match pySentences text with
      | [] => ""
      | [s1] => s1
      | s1 :: s2 :: _ => s1 ++ " " ++ s2) := by
    unfold selectedSummary
    rcases h : pySentences text with _ | ⟨s1, _ | ⟨s2, t2⟩⟩ <;> simp [joinSpace]
  unfold summarize_text summarize_claim_amended
  rw [hsel]

/-- Claim C5 (counterexample): on the one-sentence text `" ab"` the code
strips the selection and returns `"ab"`, not the sentence `" ab"` the
claim promises. -/
theorem summarize_claim_cex :
    pySentences " ab" = [" ab"] ∧
      summarize_text " ab" 300 ≠ summarize_claim " ab" 300 := by
  constructor
  · decide
  · decide

section LengthLemmas

lemma dropWhile_length_le {α : Type} (p : α → Bool) (l : List α) :
    (l.dropWhile p).length ≤ l.length := by
  induction l with
  | nil => simp
  | cons a t ih =>
      simp only [List.dropWhile_cons]
      split
      · simp only [List.length_cons]
        omega
      · simp

lemma rsplitLastSpace_length_le (l : List Char) :
    (rsplitLastSpace l).length ≤ l.length := by
  unfold rsplitLastSpace
  rcases h : l.reverse.dropWhile (fun c => !(c = ' ')) with _ | ⟨c, before⟩
  · exact le_rfl
  · have h1 : (l.reverse.dropWhile (fun c => !(c = ' '))).length ≤
        l.reverse.length := dropWhile_length_le _ _
    rw [h] at h1
    simp only [List.length_cons, List.length_reverse] at h1 ⊢
    omega

end LengthLemmas

/-- Claim C9: the summary never exceeds the budget by more than the
three characters of the ellipsis, and when the selected text already
fits the budget it is returned untouched (so an untruncated result never
exceeds the budget). -/
theorem summarize_text_length_bound (text : String) (max_chars : Nat) :
    (summarize_text text max_chars).length ≤ max_chars + 3 ∧
      ((selectedSummary text).length ≤ max_chars →
        summarize_text text max_chars = selectedSummary text) := by
  constructor
  · unfold summarize_text
    by_cases h : max_chars < (selectedSummary text).length
    · simp only [h, if_true]
      have h1 : (rsplitLastSpace ((selectedSummary text).data.take max_chars)).length ≤
          max_chars := by
        have := rsplitLastSpace_length_le ((selectedSummary text).data.take max_chars)
        have h2 : ((selectedSummary text).data.take max_chars).length ≤ max_chars := by
          simp [List.length_take]
        omega
      show (rsplitLastSpace ((selectedSummary text).data.take max_chars) ++
          "...".data).length ≤ max_chars + 3
      rw [List.length_append]
      have h3 : ("...".data).length = 3 := by decide
      omega
    · simp only [h, if_false]
      omega
  · intro hle
    have h : ¬ max_chars < (selectedSummary text).length := by omega
    unfold summarize_text
    simp [h]

/-- Claim C9 (witness): a concrete text whose selection fits the budget,
settled by applying the bound theorem at it. -/
theorem summarize_text_length_bound_witness :
    (summarize_text "hello" 300).length ≤ 303 ∧
      summarize_text "hello" 300 = selectedSummary "hello" :=
  ⟨(summarize_text_length_bound "hello" 300).1,
    (summarize_text_length_bound "hello" 300).2 (by decide)⟩

/-- The href test of `extract_bill_links` (`main.py` line 64):
`re.search(r'Bills/Details|BillInfo/Details|billInfo/Bill', href, re.I)`
— a case-insensitive search for any of the three literal alternatives —
`or 'bill' in href.lower()`. -/
def hrefMatches (href : String) : Bool :=
  containsSub (pyLower href) (pyLower "Bills/Details") ||
    containsSub (pyLower href) (pyLower "BillInfo/Details") ||
    containsSub (pyLower href) (pyLower "billInfo/Bill") ||
    containsSub (pyLower href) "bill"

/-- The candidate list built by the first loop of `extract_bill_links`
(lines 61-65).  An anchor is a pair `(href, text)`, the two attributes
the code reads off each `<a href=...>` element; BeautifulSoup's scan of
the page is abstracted as this input list.  `urljoin(BASE_PORTAL, ·)` is
the library function, taken as the parameter `join`.  Python's
`text or 'No title'` falls back on the empty string. -/
def candidateLinks (join : String → String) (anchors : List (String × String)) :
    List (String × String) :=
  (anchors.filter (fun a => hrefMatches a.1)).map
    (fun a => ((if a.2 = "" then "No title" else a.2), join a.1))

/-- The dedup-and-cap loop of `extract_bill_links` (lines 67-74), break
semantics included: `if len(uniq) >= limit: break` runs at the end of
every iteration, after a possible append.  `seen` models the Python set
by membership. -/
def dedupLimitLoop (limit : Nat) :
    List (String × String) → List String → List (String × String) →
      List (String × String)
  | [], _, uniq => uniq
  | (t, u) :: rest, seen, uniq =>
    if u ∈ seen then
      if limit ≤ uniq.length then uniq
      else dedupLimitLoop limit rest seen uniq
    else
      if limit ≤ (uniq ++ [(t, u)]).length then uniq ++ [(t, u)]
      else dedupLimitLoop limit rest (u :: seen) (uniq ++ [(t, u)])

/-- `extract_bill_links` from `main.py` lines 58-75, over the anchor
list of the page and the URL-join function. -/
def extract_bill_links (anchors : List (String × String))
    (join : String → String) (limit : Nat) : List (String × String) :=
  dedupLimitLoop limit (candidateLinks join anchors) [] []

/-- First-occurrence deduplication by URL with no cap: the reference
order against which the loop's output is compared. -/
def firstSeenDedup : List (String × String) → List String → List (String × String)
  | [], _ => []
  | (t, u) :: rest, seen =>
    if u ∈ seen then firstSeenDedup rest seen
    else (t, u) :: firstSeenDedup rest (u :: seen)

section ExtractLemmas

lemma dedupLimitLoop_eq_take (limit : Nat) :
    ∀ (rest : List (String × String)) (seen : List String)
      (uniq : List (String × String)), uniq.length < limit →
      dedupLimitLoop limit rest seen uniq =
        uniq ++ (firstSeenDedup rest seen).take (limit - uniq.length) := by
  intro rest
  induction rest with
  | nil => intro seen uniq h; simp [dedupLimitLoop, firstSeenDedup]
  | cons a rest ih =>
      intro seen uniq h
      obtain ⟨t, u⟩ := a
      by_cases hu : u ∈ seen
      · have hnb : ¬ limit ≤ uniq.length := by omega
        simp only [dedupLimitLoop, firstSeenDedup, hu, if_true, hnb, if_false]
        exact ih seen uniq h
      · by_cases hb : limit ≤ (uniq ++ [(t, u)]).length
        · have hlim : limit - uniq.length = 1 := by
            simp only [List.length_append, List.length_cons, List.length_nil] at hb ⊢
            omega
          simp only [dedupLimitLoop, firstSeenDedup, hu, if_false, hb, if_true, hlim,
            List.take_succ_cons, List.take_zero]
        · have h2 : (uniq ++ [(t, u)]).length < limit := by omega
          simp only [dedupLimitLoop, firstSeenDedup, hu, if_false, hb]
          rw [ih (u :: seen) (uniq ++ [(t, u)]) h2]
          have hlen : (uniq ++ [(t, u)]).length = uniq.length + 1 := by simp
          rw [hlen]
          have hsub : limit - uniq.length = (limit - (uniq.length + 1)) + 1 := by omega
          rw [hsub, List.take_succ_cons, List.append_assoc]
          rfl

lemma firstSeenDedup_nodup :
    ∀ (l : List (String × String)) (seen : List String),
      ((firstSeenDedup l seen).map (fun p => p.2)).Nodup ∧
        ∀ u ∈ (firstSeenDedup l seen).map (fun p => p.2), u ∉ seen := by
  intro l
  induction l with
  | nil => intro seen; simp [firstSeenDedup]
  | cons a rest ih =>
      intro seen
      obtain ⟨t, u⟩ := a
      by_cases hu : u ∈ seen
      · simpa only [firstSeenDedup, hu, if_true] using ih seen
      · have h2 := ih (u :: seen)
        simp only [firstSeenDedup, hu, if_false, List.map_cons, List.nodup_cons]
        refine ⟨⟨fun hmem => ?_, h2.1⟩, ?_⟩
        · exact (h2.2 u hmem) (by simp)
        · intro v hv
          cases hv with
          | head => exact hu
          | tail _ hv2 =>
              intro hvs
              exact (h2.2 v hv2) (by simp [hvs])

end ExtractLemmas

/-- Claim C3 (amended): for every anchor list and every limit of at
least 1, `extract_bill_links` returns exactly the first-seen
deduplication of the kept links truncated to `limit` entries — hence at
most `limit` entries, no repeated resolved URL, first-seen order.
With limit 0 the break fires only after the first unique link is
appended, so one entry can still be returned. -/
theorem extract_bill_links_pos_limit_spec (anchors : List (String × String))
    (join : String → String) (limit : Nat) (h : 1 ≤ limit) :
    extract_bill_links anchors join limit =
      (firstSeenDedup (candidateLinks join anchors) []).take limit ∧
    (extract_bill_links anchors join limit).length ≤ limit ∧
    ((extract_bill_links anchors join limit).map (fun p => p.2)).Nodup := by
  have heq : extract_bill_links anchors join limit =
      (firstSeenDedup (candidateLinks join anchors) []).take limit := by
    unfold extract_bill_links
    rw [dedupLimitLoop_eq_take limit (candidateLinks join anchors) [] []
      (by simpa using h)]
    simp
  refine ⟨heq, ?_, ?_⟩
  · rw [heq]
    simp [List.length_take]
  · rw [heq, List.map_take]
    exact List.Nodup.sublist (List.take_sublist _ _)
      (firstSeenDedup_nodup (candidateLinks join anchors) []).1

/-- Claim C3 (witness): a concrete anchor list with a duplicate URL and
limit 1, settled by applying the amended theorem. -/
theorem extract_bill_links_pos_limit_spec_witness :
    extract_bill_links [("billX", "t1"), ("billX", "t2"), ("billY", "")]
        (fun s => s) 1 =
      (firstSeenDedup (candidateLinks (fun s => s)
        [("billX", "t1"), ("billX", "t2"), ("billY", "")]) []).take 1 ∧
    (extract_bill_links [("billX", "t1"), ("billX", "t2"), ("billY", "")]
        (fun s => s) 1).length ≤ 1 ∧
    ((extract_bill_links [("billX", "t1"), ("billX", "t2"), ("billY", "")]
        (fun s => s) 1).map (fun p => p.2)).Nodup :=
  extract_bill_links_pos_limit_spec
    [("billX", "t1"), ("billX", "t2"), ("billY", "")] (fun s => s) 1 (by decide)

/-- Claim C3 (counterexample): with limit 0 the function still returns
one entry, because the `len(uniq) >= limit` break is tested only after
the first unique link has been appended — the claim's "at most limit
entries for every limit" fails at limit 0. -/
theorem extract_bill_links_limit_zero_cex :
    (extract_bill_links [("bill", "t")] (fun s => s) 0).length = 1 ∧
      ¬ (extract_bill_links [("bill", "t")] (fun s => s) 0).length ≤ 0 := by
  constructor
  · decide
  · decide

/-- Code-point lexicographic order, Python `<` on strings. -/
def strLtB : List Char → List Char → Bool
  | [], [] => false
  | [], _ :: _ => true
  | _ :: _, [] => false
  | a :: as, b :: bs => if a = b then strLtB as bs else decide (a < b)

/-- Insert into a sorted list, keeping ascending code-point order. -/
def insertStr (x : String) : List String → List String
  | [] => [x]
  | y :: ys => if strLtB x.data y.data then x :: y :: ys else y :: insertStr x ys

/-- Models Python `sorted` on a list of strings (insertion sort;
ascending code-point lexicographic order, as Python compares `str`). -/
def pySortStrings : List String → List String
  | [] => []
  | x :: xs => insertStr x (pySortStrings xs)

section SortLemmas

lemma insertStr_perm (x : String) (l : List String) :
    (insertStr x l).Perm (x :: l) := by
  induction l with
  | nil => simp [insertStr]
  | cons y ys ih =>
      simp only [insertStr]
      split
      · exact List.Perm.refl _
      · exact (List.Perm.cons y ih).trans (List.Perm.swap x y ys)

lemma pySortStrings_perm (l : List String) : (pySortStrings l).Perm l := by
  induction l with
  | nil => simp [pySortStrings]
  | cons x xs ih =>
      exact (insertStr_perm x (pySortStrings xs)).trans (List.Perm.cons x ih)

lemma pySortStrings_eq_nil_iff (l : List String) :
    pySortStrings l = [] ↔ l = [] := by
  constructor
  · intro h
    have := (pySortStrings_perm l).length_eq
    rw [h] at this
    simpa using (List.length_eq_zero.mp this.symm)
  · intro h; rw [h]; rfl

lemma mem_pySortStrings {x : String} {l : List String} :
    x ∈ pySortStrings l ↔ x ∈ l := (pySortStrings_perm l).mem_iff

end SortLemmas

/-- The dict returned by `parse_bill` (`main.py` lines 117-123): the
bill's url, title, date, status and capped body text.  The claims about
`build_row` quantify over arbitrary such records. -/
structure ParsedBill where
  url : String
  title : String
  published_date : String
  status : String
  full_text : String
deriving DecidableEq

/-- The output record written to the CSV, the dict built by `build_row`
(`main.py` lines 167-177): nine fixed fields. -/
structure OutputRow where
  bill_url : String
  title : String
  published_date : String
  status : String
  matched_sectors : String
  sector_main : String
  keywords_found : String
  risk_score : Int
  summary : String
deriving DecidableEq

/-- `build_row` from `main.py` lines 161-178.  `SECTOR_LABELS.get(s, s)`
is `(lookup s).getD s`; the set comprehension
`{kw for lst in keywords_map.values() for kw in lst}` with `sorted` is
the flattened values, deduplicated and sorted. -/
def build_row (parsed : ParsedBill) : OutputRow :=
  let mk := analyze_text_for_sectors parsed.full_text
  let matched := mk.1
  let keywords_map := mk.2
  let risk := compute_risk_score matched keywords_map parsed.full_text
  let summary := summarize_text parsed.full_text
  let sector_main_eng := matched.headD "other"
  let sector_main := (SECTOR_LABELS.lookup sector_main_eng).getD "Інший"
  { bill_url := parsed.url
    title := parsed.title
    published_date := parsed.published_date
    status := parsed.status
    matched_sectors :=
      joinSemicolon (matched.map (fun s => (SECTOR_LABELS.lookup s).getD s))
    sector_main := sector_main
    keywords_found :=
      joinSemicolon (pySortStrings ((keywords_map.map (fun p => p.2)).flatten.dedup))
    risk_score := risk
    summary := summary }

section BuildRowLemmas

lemma string_length_pos_iff (s : String) : 0 < s.length ↔ s ≠ "" := by
  constructor
  · intro h he
    rw [he] at h
    simp [String.length] at h
  · intro h
    rcases hs : s.data with _ | ⟨c, cs⟩
    · exact absurd (String.ext (hs.trans rfl)) h
    · have hl : s.length = s.data.length := rfl
      rw [hl, hs]
      simp

lemma joinSemicolon_ne (l : List String) (hne : l ≠ [])
    (hall : ∀ x ∈ l, x ≠ "") : joinSemicolon l ≠ "" := by
  match l, hne with
  | [x], _ => exact fun he => hall x (by simp) he
  | x :: y :: t, _ =>
      have hx : 0 < x.length := (string_length_pos_iff x).mpr (hall x (by simp))
      have hj : joinSemicolon (x :: y :: t) = x ++ ";" ++ joinSemicolon (y :: t) := rfl
      have hlen : 0 < (joinSemicolon (x :: y :: t)).length := by
        rw [hj, String.length_append, String.length_append]
        omega
      exact (string_length_pos_iff _).mp hlen

lemma analyze_matched_keys (t : String) :
    ∀ s ∈ (analyze_text_for_sectors t).1,
      s = "agrarian" ∨ s = "social" ∨ s = "corporate" := by
  intro s hs
  unfold analyze_text_for_sectors at hs
  simp only [List.mem_map, List.mem_filter] at hs
  obtain ⟨p, ⟨hpf, _⟩, rfl⟩ := hs
  obtain ⟨q, hq, rfl⟩ := hpf
  simp only [SECTOR_KEYWORDS, List.mem_cons, List.not_mem_nil, or_false] at hq
  rcases hq with rfl | rfl | rfl <;> simp

lemma label_ne_empty {s : String}
    (h : s = "agrarian" ∨ s = "social" ∨ s = "corporate") :
    (SECTOR_LABELS.lookup s).getD s ≠ "" := by
  rcases h with rfl | rfl | rfl <;> decide

lemma label_ne_other {s : String}
    (h : s = "agrarian" ∨ s = "social" ∨ s = "corporate") :
    (SECTOR_LABELS.lookup s).getD s ≠ "Інший" := by
  rcases h with rfl | rfl | rfl <;> decide

lemma lookup_label_default {s : String}
    (h : s = "agrarian" ∨ s = "social" ∨ s = "corporate") (d1 d2 : String) :
    (SECTOR_LABELS.lookup s).getD d1 = (SECTOR_LABELS.lookup s).getD d2 := by
  rcases h with rfl | rfl | rfl <;> rfl

lemma analyze_matched_eq (t : String) :
    (analyze_text_for_sectors t).1 =
      ((SECTOR_KEYWORDS.map
        (fun p => (p.1, matchedKeywords (pyLower t) p.2))).filter
          (fun p => !p.2.isEmpty)).map (fun p => p.1) := rfl

lemma analyze_map_eq (t : String) :
    (analyze_text_for_sectors t).2 =
      (SECTOR_KEYWORDS.map
        (fun p => (p.1, matchedKeywords (pyLower t) p.2))).map
          (fun p => (p.1, p.2.dedup)) := rfl

lemma analyze_all_empty_of_matched_nil (t : String)
    (h : (analyze_text_for_sectors t).1 = []) :
    ∀ p ∈ (analyze_text_for_sectors t).2, p.2 = [] := by
  rw [analyze_matched_eq, List.map_eq_nil_iff, List.filter_eq_nil_iff] at h
  intro p hp
  rw [analyze_map_eq, List.map_map] at hp
  simp only [List.mem_map, Function.comp] at hp
  obtain ⟨r, hr, rfl⟩ := hp
  have h2 : matchedKeywords (pyLower t) r.2 = [] := by
    have h3 := h (r.1, matchedKeywords (pyLower t) r.2) (List.mem_map_of_mem _ hr)
    simpa [List.isEmpty_iff] using h3
  simp [h2]

lemma analyze_exists_nonempty_of_matched_ne_nil (t : String)
    (h : (analyze_text_for_sectors t).1 ≠ []) :
    ∃ p ∈ (analyze_text_for_sectors t).2, p.2 ≠ [] := by
  rw [Ne, analyze_matched_eq, List.map_eq_nil_iff, List.filter_eq_nil_iff] at h
  push_neg at h
  obtain ⟨p, hp, hq⟩ := h
  simp only [List.mem_map] at hp
  obtain ⟨r, hr, rfl⟩ := hp
  rw [analyze_map_eq]
  refine ⟨_, List.mem_map_of_mem _ (List.mem_map_of_mem _ hr), ?_⟩
  show (matchedKeywords (pyLower t) r.2).dedup ≠ []
  simp only [Bool.not_eq_true'] at hq
  rw [Ne, List.dedup_eq_nil]
  intro hnil
  rw [hnil] at hq
  simp at hq

lemma keyword_mem_ne_empty (t : String) :
    ∀ x ∈ ((analyze_text_for_sectors t).2.map (fun p => p.2)).flatten,
      x ≠ "" := by
  intro x hx
  simp only [List.mem_flatten, List.mem_map] at hx
  obtain ⟨lst, ⟨p, hp, rfl⟩, hxl⟩ := hx
  unfold analyze_text_for_sectors at hp
  simp only [List.map_map, List.mem_map, Function.comp] at hp
  obtain ⟨r, hr, rfl⟩ := hp
  have hx2 : x ∈ matchedKeywords (pyLower t) r.2 := by
    simpa [List.mem_dedup] using hxl
  have hx3 : x ∈ r.2 := List.mem_of_mem_filter hx2
  have hall : ∀ q ∈ SECTOR_KEYWORDS, ∀ kw ∈ q.2, kw ≠ "" := by decide
  exact hall r hr x hx3

lemma keywords_found_empty_of_matched_nil (t : String)
    (h : (analyze_text_for_sectors t).1 = []) :
    joinSemicolon (pySortStrings
      (((analyze_text_for_sectors t).2.map (fun p => p.2)).flatten.dedup)) = "" := by
  have hf : ((analyze_text_for_sectors t).2.map (fun p => p.2)).flatten = [] := by
    rw [List.flatten_eq_nil_iff]
    intro lst hl
    simp only [List.mem_map] at hl
    obtain ⟨p, hp, rfl⟩ := hl
    exact analyze_all_empty_of_matched_nil t h p hp
  rw [hf]
  rfl

lemma keywords_found_ne_empty_of_matched_ne_nil (t : String)
    (h : (analyze_text_for_sectors t).1 ≠ []) :
    joinSemicolon (pySortStrings
      (((analyze_text_for_sectors t).2.map (fun p => p.2)).flatten.dedup)) ≠ "" := by
  obtain ⟨p, hp, hpne⟩ := analyze_exists_nonempty_of_matched_ne_nil t h
  obtain ⟨x, hx⟩ := List.exists_mem_of_ne_nil _ hpne
  have hxf : x ∈ ((analyze_text_for_sectors t).2.map (fun p => p.2)).flatten :=
    List.mem_flatten.mpr ⟨p.2, List.mem_map_of_mem _ hp, hx⟩
  have hne1 :
      (((analyze_text_for_sectors t).2.map (fun p => p.2)).flatten).dedup ≠ [] := by
    rw [Ne, List.dedup_eq_nil]
    intro hnil
    rw [hnil] at hxf
    exact List.not_mem_nil x hxf
  have hne2 : pySortStrings
      ((((analyze_text_for_sectors t).2.map (fun p => p.2)).flatten).dedup) ≠ [] := by
    rw [Ne, pySortStrings_eq_nil_iff]
    exact hne1
  apply joinSemicolon_ne _ hne2
  intro y hy
  have hyd : y ∈ (((analyze_text_for_sectors t).2.map (fun p => p.2)).flatten).dedup :=
    mem_pySortStrings.mp hy
  exact keyword_mem_ne_empty t y (List.mem_dedup.mp hyd)

lemma matched_sectors_ne_empty_of_matched_ne_nil (t : String)
    (h : (analyze_text_for_sectors t).1 ≠ []) :
    joinSemicolon ((analyze_text_for_sectors t).1.map
      (fun s => (SECTOR_LABELS.lookup s).getD s)) ≠ "" := by
  apply joinSemicolon_ne
  · simpa [Ne, List.map_eq_nil_iff] using h
  · intro x hx
    simp only [List.mem_map] at hx
    obtain ⟨s, hs, rfl⟩ := hx
    exact label_ne_empty (analyze_matched_keys t s hs)

end BuildRowLemmas

/-- Claim C10: in every row built by `build_row`, the classification
fields agree: `matched_sectors` is empty iff `sector_main` is the
Other label `Інший`, iff `keywords_found` is empty; and when sectors
matched, `sector_main` is the label of the first matched sector. -/
theorem build_row_classification_consistent (parsed : ParsedBill) :
    ((build_row parsed).matched_sectors = "" ↔
      (build_row parsed).sector_main = "Інший") ∧
    ((build_row parsed).matched_sectors = "" ↔
      (build_row parsed).keywords_found = "") ∧
    (∀ s0 rest, (analyze_text_for_sectors parsed.full_text).1 = s0 :: rest →
      (build_row parsed).sector_main = (SECTOR_LABELS.lookup s0).getD s0) := by
  have hms : (build_row parsed).matched_sectors =
      joinSemicolon ((analyze_text_for_sectors parsed.full_text).1.map
        (fun s => (SECTOR_LABELS.lookup s).getD s)) := rfl
  have hsm : (build_row parsed).sector_main =
      (SECTOR_LABELS.lookup
        ((analyze_text_for_sectors parsed.full_text).1.headD "other")).getD
          "Інший" := rfl
  have hkf : (build_row parsed).keywords_found =
      joinSemicolon (pySortStrings
        (((analyze_text_for_sectors parsed.full_text).2.map
          (fun p => p.2)).flatten.dedup)) := rfl
  by_cases hm : (analyze_text_for_sectors parsed.full_text).1 = []
  · refine ⟨?_, ?_, ?_⟩
    · rw [hms, hsm, hm]
      decide
    · rw [hms, hkf, hm,
        keywords_found_empty_of_matched_nil parsed.full_text hm]
      decide
    · intro s0 rest heq
      rw [hm] at heq
      exact absurd heq (by simp)
  · rcases hmc : (analyze_text_for_sectors parsed.full_text).1 with _ | ⟨s0, rest⟩
    · exact absurd hmc hm
    · have hs0 : s0 ∈ (analyze_text_for_sectors parsed.full_text).1 := by
        rw [hmc]; simp
      have hkeys := analyze_matched_keys parsed.full_text s0 hs0
      refine ⟨?_, ?_, ?_⟩
      · apply iff_of_false
        · rw [hms]
          exact matched_sectors_ne_empty_of_matched_ne_nil parsed.full_text hm
        · rw [hsm, hmc]
          simp only [List.headD_cons]
          rw [lookup_label_default hkeys "Інший" s0]
          exact label_ne_other hkeys
      · apply iff_of_false
        · rw [hms]
          exact matched_sectors_ne_empty_of_matched_ne_nil parsed.full_text hm
        · rw [hkf]
          exact keywords_found_ne_empty_of_matched_ne_nil parsed.full_text hm
      · intro s1 rest1 heq
        injection heq with h1 h2
        subst h1
        subst h2
        rw [hsm, hmc]
        simp only [List.headD_cons]
        exact lookup_label_default hkeys "Інший" s0

/-- Claim C10 (witness): a concrete bill whose text matches the agrarian
sector, settled by applying the consistency theorem. -/
theorem build_row_classification_consistent_witness :
    (analyze_text_for_sectors "земля").1 = "agrarian" :: [] ∧
      (build_row ⟨"u", "t", "", "", "земля"⟩).sector_main =
        (SECTOR_LABELS.lookup "agrarian").getD "agrarian" :=
  ⟨by decide,
    (build_row_classification_consistent ⟨"u", "t", "", "", "земля"⟩).2.2
      "agrarian" [] (by decide)⟩

/-- Whether the csv module's default dialect must quote a field: it
contains the delimiter, the quote character, or a line-terminator
character.  Modelled from the Python `csv` library's QUOTE_MINIMAL
behaviour used by `save_rows_to_csv`. -/
def needsQuote (c : Char) : Bool := c = ',' || c = '"' || c = '\r' || c = '\n'

/-- Quote-doubling inside a quoted CSV field. -/
def doubleQuotes : List Char → List Char
  | [] => []
  | c :: rest =>
    if c = '"' then '"' :: '"' :: doubleQuotes rest else c :: doubleQuotes rest

/-- One CSV field as the writer emits it: quoted with doubled quotes
when needed, bare otherwise. -/
def encodeFieldL (f : List Char) : List Char :=
  if f.any needsQuote then '"' :: (doubleQuotes f ++ ['"']) else f

/-- Comma-join of encoded fields. -/
def joinComma : List (List Char) → List Char
  | [] => []
  | [x] => x
  | x :: y :: t => x ++ ',' :: joinComma (y :: t)

/-- One CSV record line as `csv.DictWriter.writerow` emits it (line
terminator aside). -/
def encodeRecordL (fs : List (List Char)) : List Char :=
  joinComma (fs.map encodeFieldL)

/-- String-level CSV record encoding. -/
def encodeRecord (fs : List String) : String :=
  ⟨encodeRecordL (fs.map String.data)⟩

/-- Quoted-field scan of a standard CSV reader, after the opening quote:
`pending` records that the previous character was a quote that may close
the field or be half of a doubled quote. -/
def parseQuoted (pending : Bool) (acc : List Char) :
    List Char → List Char × List Char
  | [] => (acc.reverse, [])
  | c :: rest =>
    if pending then
      if c = '"' then parseQuoted false ('"' :: acc) rest
      else (acc.reverse, c :: rest)
    else
      if c = '"' then parseQuoted true acc rest
      else parseQuoted false (c :: acc) rest

/-- One field of a standard CSV reader: quoted when it starts with a
quote, otherwise everything up to the next comma; returns the field and
the remaining input after a consumed comma, or `none` at end of record. -/
def parseField : List Char → List Char × Option (List Char)
  | [] => ([], none)
  | c :: rest =>
    if c = '"' then
      match parseQuoted false [] rest with
      | (f, ',' :: r2) => (f, some r2)
      | (f, _) => (f, none)
    else
      match (c :: rest).dropWhile (fun x => !(x = ',')) with
      | ',' :: r2 => ((c :: rest).takeWhile (fun x => !(x = ',')), some r2)
      | _ => ((c :: rest).takeWhile (fun x => !(x = ',')), none)

/-- Fields of one CSV record, fuelled for structural recursion; the fuel
`input.length + 1` always suffices since each further field consumes at
least the comma before it. -/
def parseRecordAux : Nat → List Char → List (List Char)
  | 0, _ => []
  | fuel + 1, input =>
    match parseField input with
    | (f, none) => [f]
    | (f, some r2) => f :: parseRecordAux fuel r2

/-- A standard CSV reader on one record line. -/
def parseRecordL (input : List Char) : List (List Char) :=
  parseRecordAux (input.length + 1) input

/-- String-level CSV record parsing. -/
def parseRecord (s : String) : List String :=
  (parseRecordL s.data).map (fun l => ⟨l⟩)

section CsvLemmas

lemma takeWhile_append_of_all {α : Type} (p : α → Bool) (l1 l2 : List α)
    (h : ∀ x ∈ l1, p x = true) :
    (l1 ++ l2).takeWhile p = l1 ++ l2.takeWhile p := by
  induction l1 with
  | nil => simp
  | cons a t ih =>
      have ha := h a (by simp)
      simp only [List.cons_append, List.takeWhile_cons, ha, if_true]
      rw [ih (fun x hx => h x (by simp [hx]))]

lemma dropWhile_append_of_all {α : Type} (p : α → Bool) (l1 l2 : List α)
    (h : ∀ x ∈ l1, p x = true) :
    (l1 ++ l2).dropWhile p = l2.dropWhile p := by
  induction l1 with
  | nil => simp
  | cons a t ih =>
      have ha := h a (by simp)
      simp only [List.cons_append, List.dropWhile_cons, ha, if_true]
      exact ih (fun x hx => h x (by simp [hx]))

lemma parseQuoted_encode (f : List Char) :
    ∀ (acc rest : List Char), rest.head? ≠ some '"' →
      parseQuoted false acc (doubleQuotes f ++ '"' :: rest) =
        (acc.reverse ++ f, rest) := by
  induction f with
  | nil =>
      intro acc rest hr
      show parseQuoted false acc ('"' :: rest) = (acc.reverse ++ [], rest)
      rcases rest with _ | ⟨c, rest2⟩
      · simp [parseQuoted]
      · have hc : ¬ c = '"' := by
          intro hc
          rw [hc] at hr
          simp at hr
        simp [parseQuoted, hc]
  | cons x f2 ih =>
      intro acc rest hr
      by_cases hx : x = '"'
      · subst hx
        have hdq : doubleQuotes ('"' :: f2) = '"' :: '"' :: doubleQuotes f2 := by
          simp [doubleQuotes]
        rw [hdq]
        show parseQuoted false acc ('"' :: ('"' :: (doubleQuotes f2 ++ '"' :: rest))) =
          (acc.reverse ++ '"' :: f2, rest)
        simp only [parseQuoted, if_true, if_false]
        rw [ih ('"' :: acc) rest hr]
        simp
      · have hdq : doubleQuotes (x :: f2) = x :: doubleQuotes f2 := by
          simp [doubleQuotes, hx]
        rw [hdq]
        show parseQuoted false acc (x :: (doubleQuotes f2 ++ '"' :: rest)) =
          (acc.reverse ++ x :: f2, rest)
        simp only [parseQuoted, hx, if_false]
        rw [ih (x :: acc) rest hr]
        simp

end CsvLemmas

section CsvFieldLemmas

lemma parseField_quote (rest : List Char) :
    parseField ('"' :: rest) =
      match parseQuoted false [] rest with
      | (f, ',' :: r2) => (f, some r2)
      | (f, _) => (f, none) := by
  simp [parseField]

lemma parseField_nonquote (c : Char) (rest : List Char) (hc : ¬ c = '"') :
    parseField (c :: rest) =
      match (c :: rest).dropWhile (fun x => !(x = ',')) with
      | ',' :: r2 => ((c :: rest).takeWhile (fun x => !(x = ',')), some r2)
      | _ => ((c :: rest).takeWhile (fun x => !(x = ',')), none) := by
  simp [parseField, hc]

lemma unquoted_chars (f : List Char) (hq : ¬ f.any needsQuote = true) :
    ∀ x ∈ f, ¬ x = ',' ∧ ¬ x = '"' := by
  intro x hx
  have hn : ¬ needsQuote x = true := by
    intro hb
    exact hq (List.any_eq_true.mpr ⟨x, hx, hb⟩)
  constructor
  · intro he
    exact hn (by simp [needsQuote, he])
  · intro he
    exact hn (by simp [needsQuote, he])

lemma parseField_encode_comma (f : List Char) (rest : List Char) :
    parseField (encodeFieldL f ++ ',' :: rest) = (f, some rest) := by
  by_cases hq : f.any needsQuote
  · have henc : encodeFieldL f = '"' :: (doubleQuotes f ++ ['"']) := by
      simp [encodeFieldL, hq]
    rw [henc]
    have hshape : ('"' :: (doubleQuotes f ++ ['"'])) ++ ',' :: rest =
        '"' :: (doubleQuotes f ++ '"' :: (',' :: rest)) := by
      simp
    rw [hshape, parseField_quote]
    have hpq := parseQuoted_encode f [] (',' :: rest) (by simp)
    simp only [List.reverse_nil, List.nil_append] at hpq
    rw [hpq]
    rfl
  · have henc : encodeFieldL f = f := by simp [encodeFieldL, hq]
    rw [henc]
    have hnc : ∀ x ∈ f, (!(x = ',') : Bool) = true := by
      intro x hx
      simp [(unquoted_chars f hq x hx).1]
    rcases f with _ | ⟨a, f2⟩
    · simp only [List.nil_append]
      rw [parseField_nonquote ',' rest (by decide)]
      simp [List.dropWhile_cons, List.takeWhile_cons]
    · have ha : ¬ a = '"' := (unquoted_chars _ hq a (by simp)).2
      have hcons : (a :: f2) ++ ',' :: rest = a :: (f2 ++ ',' :: rest) := by simp
      rw [hcons, parseField_nonquote a _ ha]
      have hdw : ((a :: (f2 ++ ',' :: rest)).dropWhile (fun x => !(x = ','))) =
          ',' :: rest := by
        rw [← hcons, dropWhile_append_of_all _ _ _ hnc]
        simp [List.dropWhile_cons]
      have htw : ((a :: (f2 ++ ',' :: rest)).takeWhile (fun x => !(x = ','))) =
          a :: f2 := by
        rw [← hcons, takeWhile_append_of_all _ _ _ hnc]
        simp [List.takeWhile_cons]
      rw [hdw, htw]
      rfl

lemma parseField_encode_last (f : List Char) :
    parseField (encodeFieldL f) = (f, none) := by
  by_cases hq : f.any needsQuote
  · have henc : encodeFieldL f = '"' :: (doubleQuotes f ++ ['"']) := by
      simp [encodeFieldL, hq]
    rw [henc]
    have hshape : doubleQuotes f ++ ['"'] = doubleQuotes f ++ '"' :: [] := rfl
    rw [hshape, parseField_quote]
    have hpq := parseQuoted_encode f [] [] (by simp)
    simp only [List.reverse_nil, List.nil_append] at hpq
    rw [hpq]
  · have henc : encodeFieldL f = f := by simp [encodeFieldL, hq]
    rw [henc]
    have hnc : ∀ x ∈ f, (!(x = ',') : Bool) = true := by
      intro x hx
      simp [(unquoted_chars f hq x hx).1]
    rcases f with _ | ⟨a, f2⟩
    · rfl
    · have ha : ¬ a = '"' := (unquoted_chars _ hq a (by simp)).2
      rw [parseField_nonquote a _ ha]
      have hdw : ((a :: f2).dropWhile (fun x => !(x = ','))) = [] := by
        rw [List.dropWhile_eq_nil_iff]
        intro x hx
        exact hnc x hx
      have htw : ((a :: f2).takeWhile (fun x => !(x = ','))) = a :: f2 := by
        rw [List.takeWhile_eq_self_iff]
        intro x hx
        exact hnc x hx
      rw [hdw, htw]

lemma encodeRecordL_cons2 (f g : List Char) (t : List (List Char)) :
    encodeRecordL (f :: g :: t) = encodeFieldL f ++ ',' :: encodeRecordL (g :: t) := rfl

lemma parseRecordAux_encode (fs : List (List Char)) :
    ∀ fuel : Nat, fs.length ≤ fuel → fs ≠ [] →
      parseRecordAux fuel (encodeRecordL fs) = fs := by
  induction fs with
  | nil => intro fuel _ hne; exact absurd rfl hne
  | cons f t ih =>
      intro fuel hf _
      obtain ⟨fuel2, rfl⟩ : ∃ k, fuel = k + 1 :=
        ⟨fuel - 1, by simp at hf; omega⟩
      cases t with
      | nil =>
          have henc : encodeRecordL [f] = encodeFieldL f := rfl
          rw [henc]
          simp [parseRecordAux, parseField_encode_last f]
      | cons g t2 =>
          rw [encodeRecordL_cons2]
          simp only [parseRecordAux, parseField_encode_comma f (encodeRecordL (g :: t2))]
          rw [ih fuel2 (by simp at hf ⊢; omega) (by simp)]

lemma encodeRecordL_length_ge (fs : List (List Char)) :
    fs.length ≤ (encodeRecordL fs).length + 1 := by
  induction fs with
  | nil => simp
  | cons f t ih =>
      cases t with
      | nil => simp
      | cons g t2 =>
          rw [encodeRecordL_cons2]
          simp only [List.length_cons, List.length_append] at ih ⊢
          omega

end CsvFieldLemmas

/-- The nine field values of an OutputRow, in the fixed `fieldnames`
order of `save_rows_to_csv`; `csv` writes the integer `risk_score` as
its decimal string. -/
def rowFields (r : OutputRow) : List String :=
  [r.bill_url, r.title, r.published_date, r.status, r.matched_sectors,
   r.sector_main, r.keywords_found, toString r.risk_score, r.summary]

/-- Claim C8: writing any OutputRow as a CSV record with the writer's
quoting/escaping and re-parsing it with a standard CSV reader returns
exactly the same nine field values, assuming no embedded newlines. -/
theorem csv_round_trip (r : OutputRow)
    (_hnl : ∀ f ∈ rowFields r, ¬ '\n' ∈ f.data ∧ ¬ '\r' ∈ f.data) :
    parseRecord (encodeRecord (rowFields r)) = rowFields r := by
  unfold parseRecord encodeRecord parseRecordL
  have hlen : ((rowFields r).map String.data).length ≤
      (encodeRecordL ((rowFields r).map String.data)).length + 1 :=
    encodeRecordL_length_ge _
  rw [parseRecordAux_encode ((rowFields r).map String.data) _ hlen
    (by simp [rowFields])]
  rw [List.map_map]
  have : (fun l => (⟨l⟩ : String)) ∘ String.data = id := by
    funext s
    rfl
  rw [this, List.map_id]

/-- Claim C8 (witness): a concrete row containing a comma and quotes,
settled by applying the round-trip theorem. -/
theorem csv_round_trip_witness :
    parseRecord (encodeRecord (rowFields
      ⟨"https://itd.rada.gov.ua/billInfo/Bills/1", "Закон, з комою",
        "01.02.2024", "registered/accepted", "Аграрний", "Аграрний",
        "земл;субсид", 4, "Це цитата z"⟩)) =
      rowFields ⟨"https://itd.rada.gov.ua/billInfo/Bills/1", "Закон, з комою",
        "01.02.2024", "registered/accepted", "Аграрний", "Аграрний",
        "земл;субсид", 4, "Це цитата z"⟩ :=
  csv_round_trip _ (by decide)

/-- The `fieldnames` list of `save_rows_to_csv` (`main.py` lines 182-186). -/
def csvFieldnames : List String :=
  ["bill_url", "title", "published_date", "status", "matched_sectors",
   "sector_main", "keywords_found", "risk_score", "summary"]

/-- `save_rows_to_csv` from `main.py` lines 181-192, as the CSV file
content it writes: the header row followed by one encoded record per
given row, in order. -/
def save_rows_to_csv (rows : List OutputRow) : List String :=
  encodeRecord csvFieldnames :: rows.map (fun r => encodeRecord (rowFields r))

/-- The CSV-writing stage of `main` (`main.py` lines 219-223):
`rows = rows[:500]` then `save_rows_to_csv(rows)` when `rows` is
nonempty; no file is written otherwise. -/
def writeStage (rows : List OutputRow) : Option (List String) :=
  if rows.isEmpty then none else some (save_rows_to_csv (rows.take 500))

/-- Claim C7: whenever rows were collected, the write stage truncates
them to at most 500 before writing, so the file is the header row
followed by at most 500 data rows, one per record, in input order. -/
theorem write_stage_truncates (rows : List OutputRow) (h : rows ≠ []) :
    writeStage rows =
      some (encodeRecord csvFieldnames ::
        (rows.take 500).map (fun r => encodeRecord (rowFields r))) ∧
    ((rows.take 500).map (fun r => encodeRecord (rowFields r))).length ≤ 500 := by
  constructor
  · unfold writeStage save_rows_to_csv
    rw [if_neg (by simpa [List.isEmpty_iff] using h)]
  · simp [List.length_take]

/-- Claim C7 (witness): a single-row list, settled by applying the
truncation theorem. -/
theorem write_stage_truncates_witness :
    writeStage [⟨"u", "t", "", "", "", "Інший", "", 0, ""⟩] =
      some (encodeRecord csvFieldnames ::
        ([⟨"u", "t", "", "", "", "Інший", "", 0, ""⟩].take 500).map
          (fun r => encodeRecord (rowFields r))) ∧
    (([(⟨"u", "t", "", "", "", "Інший", "", 0, ""⟩ : OutputRow)].take 500).map
        (fun r => encodeRecord (rowFields r))).length ≤ 500 :=
  write_stage_truncates [⟨"u", "t", "", "", "", "Інший", "", 0, ""⟩] (by simp)

/-- The observable effects of one run of `main`: the detail-page URLs
fetched, the CSV file written (if any), and the console lines printed. -/
structure RunResult where
  detailRequests : List String
  csvFile : Option (List String)
  console : List String

/-- `main` from `main.py` lines 195-223, over the program's external
dependencies as parameters: `periodHtml` is the result of
`fetch_period_page` (`none` on fetch failure), `anchorsOf` lists the
`<a href>` anchors BeautifulSoup finds in a page, `join` is
`urljoin(BASE_PORTAL, ·)`, `fetchBill` is `fetch_bill_page`, and
`parseBillF` is `parse_bill` (HTML heuristics over BeautifulSoup).
Python truthiness is kept: `if not html:` aborts also on a successfully
fetched empty body, and `if not bill_html: continue` skips an empty
bill page.  Exception text interpolated into error lines is omitted
(a failed fetch prints its error prefix), and `time.sleep(0.8)` has no
observable effect in the model. -/
def mainModel (periodHtml : Option String)
    (anchorsOf : String → List (String × String)) (join : String → String)
    (fetchBill : String → Option String)
    (parseBillF : String → String → ParsedBill) (limit : Nat) : RunResult :=
  match periodHtml with
  | none => ⟨[], none,
      ["Помилка завантаження списку законопроектів",
       "Немає HTML зі сторінки періоду — припиняємо."]⟩
  | some html =>
    if html = "" then
      ⟨[], none, ["Немає HTML зі сторінки періоду — припиняємо."]⟩
    else
      let links := extract_bill_links (anchorsOf html) join limit
      let headerMsg := "Знайдено близько " ++ toString links.length ++
        " потенційних посилань на законопроекти (heuristic)."
      let step := fun (acc : List OutputRow × List String)
          (it : Nat × (String × String)) =>
        let procMsg := "[" ++ toString it.1 ++ "/" ++ toString links.length ++
          "] Обробка: " ++ it.2.1 ++ " - " ++ it.2.2
        match fetchBill it.2.2 with
        | none => (acc.1, acc.2 ++ [procMsg, "Не вдалось завантажити " ++ it.2.2])
        | some bh =>
          if bh = "" then (acc.1, acc.2 ++ [procMsg])
          else
            let row := build_row (parseBillF bh it.2.2)
            (acc.1 ++ [row],
             acc.2 ++ [procMsg,
               "→ Сектор: " ++ row.sector_main ++ " | Посилання: " ++ row.bill_url])
      let rowsMsgs := (links.enumFrom 1).foldl step ([], [])
      match writeStage rowsMsgs.1 with
      | some file =>
          ⟨links.map (fun p => p.2), some file,
           headerMsg :: rowsMsgs.2 ++
             ["Збережено " ++ toString (rowsMsgs.1.take 500).length ++
               " записів у bills_output.csv"]⟩
      | none =>
          ⟨links.map (fun p => p.2), none,
           headerMsg :: rowsMsgs.2 ++ ["Нічого не збережено — rows порожній."]⟩

/-- Claim C6: in every run that reaches the link extractor (the listing
fetch returned a nonempty body, so the truthiness abort did not fire)
and in which the extractor returns no links, the run fetches no detail
page, writes no CSV file, and prints the nothing-saved notice. -/
theorem zero_links_run (html : String)
    (anchorsOf : String → List (String × String)) (join : String → String)
    (fetchBill : String → Option String)
    (parseBillF : String → String → ParsedBill) (limit : Nat)
    (hne : html ≠ "")
    (h : extract_bill_links (anchorsOf html) join limit = []) :
    (mainModel (some html) anchorsOf join fetchBill parseBillF
      limit).detailRequests = [] ∧
    (mainModel (some html) anchorsOf join fetchBill parseBillF
      limit).csvFile = none ∧
    "Нічого не збережено — rows порожній." ∈
      (mainModel (some html) anchorsOf join fetchBill parseBillF
        limit).console := by
  simp only [mainModel]
  rw [if_neg hne]
  simp only [h, List.enumFrom, List.foldl_nil, List.map_nil]
  simp [writeStage]

/-- Claim C6 (witness): concrete oracles on which the nonempty listing
page has no anchors, settled by applying the zero-links theorem. -/
theorem zero_links_run_witness :
    (mainModel (some "<html></html>") (fun _ => []) (fun s => s) (fun _ => none)
      (fun _ u => ⟨u, "", "", "", ""⟩) 50).detailRequests = [] ∧
    (mainModel (some "<html></html>") (fun _ => []) (fun s => s) (fun _ => none)
      (fun _ u => ⟨u, "", "", "", ""⟩) 50).csvFile = none ∧
    "Нічого не збережено — rows порожній." ∈
      (mainModel (some "<html></html>") (fun _ => []) (fun s => s) (fun _ => none)
        (fun _ u => ⟨u, "", "", "", ""⟩) 50).console :=
  zero_links_run "<html></html>" (fun _ => []) (fun s => s) (fun _ => none)
    (fun _ u => ⟨u, "", "", "", ""⟩) 50 (by decide) (by decide)
